import Mathlib

/-!
Verification of the repository's search engine against its specification.

The repository ships only the engine's test suite; the engine itself
(`bytesToLowerASCII`, `lowerRegexpASCII`, `longestLiteral`, `compile`,
`concurrentFind`, `getStartingMatch`, `getEndingMatch`, `generateMatches`,
`getMultiLineMatches`) is modelled here from the specification, with byte
buffers as `List Nat` (each element a byte / unicode scalar value).
The test suite's expected values pin the concrete behaviour.
-/

/-- Modelled from the spec: ASCII lowercase of one byte/rune; bytes outside
A-Z pass through unchanged (the reference lowering used byte-for-byte). -/
def toLowerASCII (c : Nat) : Nat :=
  if 65 ≤ c ∧ c ≤ 90 then c + 32 else c

/-- ASCII uppercase of one byte/rune (used to state case-insensitive
matching semantics). -/
def toUpperASCII (c : Nat) : Nat :=
  if 97 ≤ c ∧ c ≤ 122 then c - 32 else c

/-- Modelled from the spec: the straightforward reference lowering
`bytesToLowerASCIIgeneric` (missing from src; only its test oracle use is
present): `dst[i] = toLowerASCII(src[i])` for all `i`. -/
def bytesToLowerASCIIgeneric (src : List Nat) : List Nat :=
  src.map toLowerASCII

/-- Modelled from the spec: one byte of the optimized, branch-free
(SWAR-style) lowering used by `bytesToLowerASCII`: bit 7 of
`(b|0x80) - 'A'` minus the corresponding bit of `(b|0x80) - ('Z'+1)`,
masked by the byte's own top bit, selects whether to add 0x20. -/
def lowerByteBranchless (c : Nat) : Nat :=
  let v := c % 256
  let batch := v ||| 128
  let aSub := (batch + 256 - 65) % 256
  let zSub := (batch + 256 - 91) % 256
  let mask := aSub &&& (255 ^^^ zSub) &&& (255 ^^^ v) &&& 128
  (v + mask / 4) % 256

/-- Modelled from the spec: the optimized `bytesToLowerASCII` (missing from
src), applied byte-for-byte over the source slice. -/
def bytesToLowerASCII (src : List Nat) : List Nat :=
  src.map lowerByteBranchless

/-- The contiguous sub-slice `b[i:j]` of a buffer. -/
def sliceB (b : List Nat) (i j : Nat) : List Nat :=
  (b.drop i).take (j - i)

/-- Writing a computed slice back into a larger destination buffer at
offset `i` (models an in-place slice write, to state the no-out-of-bounds
property). -/
def writeInto (dst : List Nat) (i : Nat) (xs : List Nat) : List Nat :=
  dst.take i ++ xs ++ dst.drop (i + xs.length)

set_option maxRecDepth 4000 in
theorem lowerByteBranchless_eq_toLower (c : Nat) (h : c < 256) :
    lowerByteBranchless c = toLowerASCII c := by
  revert h
  revert c
  decide

theorem bytesToLowerASCII_eq_generic (b : List Nat) (h : ∀ x ∈ b, x < 256) :
    bytesToLowerASCII b = bytesToLowerASCIIgeneric b := by
  unfold bytesToLowerASCII bytesToLowerASCIIgeneric
  induction b with
  | nil => rfl
  | cons x xs ih =>
      simp only [List.map_cons]
      rw [lowerByteBranchless_eq_toLower x (h x (List.mem_cons_self x xs)),
        ih (fun y hy => h y (List.mem_cons_of_mem x hy))]

theorem sliceB_all_mem {b : List Nat} {i j : Nat} {P : Nat → Prop}
    (h : ∀ x ∈ b, P x) : ∀ x ∈ sliceB b i j, P x := by
  intro x hx
  exact h x (List.mem_of_mem_drop (List.mem_of_mem_take hx))

theorem length_bytesToLowerASCII (b : List Nat) :
    (bytesToLowerASCII b).length = b.length := by
  simp [bytesToLowerASCII]

theorem length_sliceB {b : List Nat} {i j : Nat} (hij : i ≤ j)
    (hj : j ≤ b.length) : (sliceB b i j).length = j - i := by
  simp [sliceB]
  omega

theorem writeInto_outside (dbuf : List Nat) (i : Nat) (xs : List Nat) (k : Nat)
    (hfit : i + xs.length ≤ dbuf.length)
    (h : k < i ∨ i + xs.length ≤ k) :
    (writeInto dbuf i xs)[k]? = dbuf[k]? := by
  unfold writeInto
  have hti : (dbuf.take i).length = i := by
    rw [List.length_take]
    omega
  have hlen2 : (dbuf.take i ++ xs).length = i + xs.length := by
    rw [List.length_append, hti]
  rcases h with h | h
  · rw [List.getElem?_append_left (by rw [hlen2]; omega)]
    rw [List.getElem?_append_left (by rw [hti]; omega)]
    rw [List.getElem?_take]
    simp [h]
  · rw [List.getElem?_append_right (by rw [hlen2]; omega), hlen2]
    rw [List.getElem?_drop]
    congr 1
    omega

/-- C2: for every byte buffer and contiguous sub-slice, the optimized
`bytesToLowerASCII` agrees byte-for-byte with the reference
`bytesToLowerASCIIgeneric` on that sub-slice (including the empty one), and
writing the produced slice back into a destination buffer leaves every
byte outside the sub-slice's bounds `[i, j)` unchanged. -/
theorem c2_bytesToLowerASCII_subslice_agrees_and_in_bounds
    (b dstb : List Nat) (i j : Nat)
    (hbytes : ∀ x ∈ b, x < 256) (hij : i ≤ j) (hj : j ≤ b.length)
    (hdst : dstb.length = b.length) :
    bytesToLowerASCII (sliceB b i j) = bytesToLowerASCIIgeneric (sliceB b i j) ∧
    (∀ k, k < i ∨ j ≤ k →
      (writeInto dstb i (bytesToLowerASCII (sliceB b i j)))[k]? = dstb[k]?) := by
  constructor
  · exact bytesToLowerASCII_eq_generic _ (sliceB_all_mem hbytes)
  · intro k hk
    have hl : (bytesToLowerASCII (sliceB b i j)).length = j - i := by
      rw [length_bytesToLowerASCII, length_sliceB hij hj]
    apply writeInto_outside
    · rw [hl]
      omega
    · rw [hl]
      omega

/-- Witness for C2 at a concrete buffer: the pangram-style buffer of the
test, sub-slice `[1, 5)`, written back into a buffer of `120`s. -/
theorem c2_witness :
    (∀ x ∈ [77, 65, 90, 64, 91, 97, 109], x < 256) ∧ (1 : Nat) ≤ 5 ∧
      (5 : Nat) ≤ [77, 65, 90, 64, 91, 97, 109].length ∧
      ([120, 120, 120, 120, 120, 120, 120] : List Nat).length =
        [77, 65, 90, 64, 91, 97, 109].length ∧
      (bytesToLowerASCII (sliceB [77, 65, 90, 64, 91, 97, 109] 1 5) =
        bytesToLowerASCIIgeneric (sliceB [77, 65, 90, 64, 91, 97, 109] 1 5) ∧
      (∀ k, k < 1 ∨ 5 ≤ k →
        (writeInto [120, 120, 120, 120, 120, 120, 120] 1
          (bytesToLowerASCII (sliceB [77, 65, 90, 64, 91, 97, 109] 1 5)))[k]? =
          ([120, 120, 120, 120, 120, 120, 120] : List Nat)[k]?)) :=
  ⟨by decide, by decide, by decide, by decide,
    c2_bytesToLowerASCII_subslice_agrees_and_in_bounds
      [77, 65, 90, 64, 91, 97, 109] [120, 120, 120, 120, 120, 120, 120] 1 5
      (by decide) (by decide) (by decide) (by decide)⟩

/-- A per-line match record: verbatim preview slice, 0-based line number,
(offset, length) pairs within the line, and a truncation flag. -/
structure LineMatch where
  preview : List Nat
  lineNumber : Nat
  offsetAndLengths : List (Nat × Nat)
  limitHit : Bool
deriving Repr, DecidableEq

/-- A per-file match record: path, ordered line matches, truncation flag. -/
structure FileMatch where
  path : List Nat
  lineMatches : List LineMatch
  limitHit : Bool
deriving Repr, DecidableEq

/-- Accumulator pass for `lineLengths`: `cur` is the byte count of the
line being scanned. Each newline terminates a line whose stored length
includes the terminator; a nonempty unterminated tail is its own line. -/
def lineLengthsGo : Nat → List Nat → List Nat
  | cur, [] => if cur = 0 then [] else [cur]
  | cur, x :: t =>
      if x = 10 then (cur + 1) :: lineLengthsGo 0 t
      else lineLengthsGo (cur + 1) t

/-- Modelled from the spec: the mapping from line number to that line's
byte length (including its line terminator) used by the multi-line match
mapper. -/
def lineLengths (buf : List Nat) : List Nat := lineLengthsGo 0 buf

/-- Locate the line containing byte position `pos`: returns the 0-based
line number and the line's starting byte offset. A position exactly at a
line boundary (just past a terminator) belongs to the next line; a
position at or past the end of the buffer falls on one line past the last. -/
def findLineGo : Nat → Nat → Nat → List Nat → Nat × Nat
  | _, n, acc, [] => (n, acc)
  | pos, n, acc, l :: rest =>
      if pos < acc + l then (n, acc) else findLineGo pos (n + 1) (acc + l) rest

/-- Modelled from the spec: `getStartingMatch` (missing from src) — the
line containing `start`, the match's offset within it, and the matched
length on that line, clipped at the line's stored length. A `start`
exactly at a line boundary is attributed to the next line at offset 0. -/
def getStartingMatch (start end_ : Nat) (lineLens : List Nat) : Nat × Nat × Nat :=
  let p := findLineGo start 0 0 lineLens
  let lineLen := lineLens.getD p.1 0
  (p.1, start - p.2, min end_ (p.2 + lineLen) - start)

/-- Modelled from the spec: `getEndingMatch` (missing from src) — the line
containing `end`, symmetric to `getStartingMatch`: a match ending exactly
at a line start contributes a zero-length record to that line. -/
def getEndingMatch (start end_ : Nat) (lineLens : List Nat) : Nat × Nat × Nat :=
  let p := findLineGo end_ 0 0 lineLens
  let eo := start - p.2
  (p.1, eo, end_ - p.2 - eo)

/-- Modelled from the spec: `generateMatches` (missing from src) — builds
one `LineMatch` per line spanned by the boundary arguments: a record for
the starting line, whole-line records (offset 0, full stored length,
terminator included in the preview) for every line strictly between, and a
record for the ending line stopping at `endingOffset + endingLength` (no
terminator in its preview); when starting line = ending line the starting
and ending records are both emitted, never merged. Every record's
`limitHit` mirrors `lineLimitHit`. -/
def generateMatches (matchBuf : List Nat)
    (startingLine startingOffset startingLength
      endingLine endingOffset endingLength : Nat)
    (lineLens : List Nat) (lineLimitHit : Bool) : List LineMatch :=
  let lineStart := fun n => (lineLens.take n).sum
  let startRec : LineMatch :=
    { preview := sliceB matchBuf (lineStart startingLine + startingOffset)
        (lineStart startingLine + startingOffset + startingLength)
      lineNumber := startingLine
      offsetAndLengths := [(startingOffset, startingLength)]
      limitHit := lineLimitHit }
  let middleRecs : List LineMatch :=
    (List.range (endingLine - startingLine - 1)).map (fun t =>
      let n := startingLine + 1 + t
      { preview := sliceB matchBuf (lineStart n) (lineStart n + lineLens.getD n 0)
        lineNumber := n
        offsetAndLengths := [(0, lineLens.getD n 0)]
        limitHit := lineLimitHit })
  let endRec : LineMatch :=
    { preview := sliceB matchBuf (lineStart endingLine + endingOffset)
        (lineStart endingLine + endingOffset + endingLength)
      lineNumber := endingLine
      offsetAndLengths := [(endingOffset, endingLength)]
      limitHit := lineLimitHit }
  startRec :: middleRecs ++ [endRec]

/-- Does `s` start with `p`? (plain literal comparison) -/
def startsWith (p s : List Nat) : Bool := s.take p.length == p

/-- Scan for non-overlapping leftmost occurrences of a literal. `skip`
counts positions still covered by the previous occurrence; `i` is the
current byte offset. -/
def litScan (p : List Nat) : Nat → Nat → List Nat → List Nat
  | _, _, [] => []
  | 0, i, x :: xs =>
      if startsWith p (x :: xs) then i :: litScan p (p.length - 1) (i + 1) xs
      else litScan p 0 (i + 1) xs
  | skip + 1, i, _ :: xs => litScan p skip (i + 1) xs

/-- All non-overlapping leftmost occurrence offsets of literal `p` in `s`
(how the compiled matcher of a literal pattern scans one line). -/
def litOffsets (p s : List Nat) : List Nat := litScan p 0 0 s

/-- The first (leftmost) occurrence of literal `p` in `s`, as the byte
span `[start, end)` the regex engine would report. -/
def firstLit (p s : List Nat) : Option (Nat × Nat) :=
  match litOffsets p s with
  | [] => none
  | o :: _ => some (o, o + p.length)

/-- Modelled from the spec: `getMultiLineMatches` (missing from src) —
maps one raw match byte span to per-line records via `getStartingMatch`,
`getEndingMatch` and `generateMatches` over the file's line-length table;
the second component is the per-file truncation flag (false for a single
mapped span). -/
def getMultiLineMatches (fileBuf : List Nat) (m : Nat × Nat) :
    List LineMatch × Bool :=
  let lens := lineLengths fileBuf
  let s := getStartingMatch m.1 m.2 lens
  let e := getEndingMatch m.1 m.2 lens
  (generateMatches fileBuf s.1 s.2.1 s.2.2 e.1 e.2.1 e.2.2 lens false, false)

/-- C6: `generateMatches` on a 5-byte first line (terminator included) with
boundary arguments startingLine=0, startingOffset=0, startingLength=5,
endingLine=0, endingOffset=5, endingLength=0 produces exactly two records
for line 0 — preview `abcd\n` with pair (0,5) and empty preview with pair
(5,0) — not one merged record. -/
theorem c6_generateMatches_same_line_two_records :
    generateMatches
      [97, 98, 99, 100, 10, 101, 102, 103, 104, 10,
        105, 106, 107, 108, 10, 109, 110, 111, 112, 13, 10]
      0 0 5 0 5 0 [5, 5, 5, 5] false =
    [{ preview := [97, 98, 99, 100, 10], lineNumber := 0,
        offsetAndLengths := [(0, 5)], limitHit := false },
      { preview := [], lineNumber := 0,
        offsetAndLengths := [(5, 0)], limitHit := false }] := by
  decide

/-- C7: for the literal pattern `a\nb` on file content `a\nb\r\n`, the
first match span is `[0, 3)` and the multi-line match mapper returns
exactly two records: line 0 with pair (0,2) and preview `a\n` (terminator
included) and line 1 with pair (0,1) and preview `b` (no terminator), with
no truncation. -/
theorem c7_getMultiLineMatches_two_line_match :
    firstLit [97, 10, 98] (bytesToLowerASCIIgeneric [97, 10, 98, 13, 10]) =
      some (0, 3) ∧
    getMultiLineMatches [97, 10, 98, 13, 10] (0, 3) =
      ([{ preview := [97, 10], lineNumber := 0,
          offsetAndLengths := [(0, 2)], limitHit := false },
        { preview := [98], lineNumber := 1,
          offsetAndLengths := [(0, 1)], limitHit := false }], false) := by
  constructor
  · decide
  · decide

/-- Modelled from the spec: the process-wide resource limits, threaded as
an explicit configuration value (maximum file matches per search, line
matches per file, offsets per line, and searchable line length). -/
structure Limits where
  maxFileMatches : Nat
  maxLineMatches : Nat
  maxOffsets : Nat
  maxLineSize : Nat
deriving Repr, DecidableEq

/-- The engine's process-wide limit constants; the spec fixes the maximum
searchable line length at 4096 bytes. -/
def stdLimits : Limits :=
  { maxFileMatches := 1000, maxLineMatches := 100, maxOffsets := 10
    maxLineSize := 4096 }

/-- Accumulator pass for `splitLines`: collects the current line's bytes
(reversed); a newline terminates a line (terminator dropped) and a
nonempty unterminated tail is its own line. -/
def splitLinesGo : List Nat → List Nat → List (List Nat)
  | acc, [] => if acc.isEmpty then [] else [acc.reverse]
  | acc, x :: t =>
      if x = 10 then acc.reverse :: splitLinesGo [] t
      else splitLinesGo (x :: acc) t

/-- Split file content into its lines, without terminators. -/
def splitLines (buf : List Nat) : List (List Nat) := splitLinesGo [] buf

/-- Modelled from the spec: the per-file line scan of the compiled
matcher's `Find` (missing from src). Each line longer than the maximum
searchable line length is excluded from matching (never an error); other
lines are matched case-insensitively (literal pattern against the
lowercased line); per line at most `maxOffsets` offsets are kept (the
line's `limitHit` records truncation), and once `maxLineMatches` lines
have matched a further matching line stops the scan with the file-level
flag set. -/
def findLinesGo (L : Limits) (p : List Nat) :
    Nat → List LineMatch → List (List Nat) → List LineMatch × Bool
  | _, acc, [] => (acc.reverse, false)
  | n, acc, line :: rest =>
      if L.maxLineSize < line.length then findLinesGo L p (n + 1) acc rest
      else if (litOffsets p (bytesToLowerASCIIgeneric line)).isEmpty then
        findLinesGo L p (n + 1) acc rest
      else if L.maxLineMatches ≤ acc.length then (acc.reverse, true)
      else
        findLinesGo L p (n + 1)
          ({ preview := line, lineNumber := n
             offsetAndLengths :=
               ((litOffsets p (bytesToLowerASCIIgeneric line)).take
                 L.maxOffsets).map (fun o => (o, p.length))
             limitHit :=
               decide (L.maxOffsets <
                 (litOffsets p (bytesToLowerASCIIgeneric line)).length) } ::
            acc) rest

/-- Modelled from the spec: the compiled matcher's per-file `Find`
(missing from src): reads the file's bytes into a reusable buffer of
`bufSize` bytes (a declared length larger than the buffer is a read
error), splits them into lines and scans them; the returned flag is the
file-level line-match truncation flag only. -/
def Find (L : Limits) (p : List Nat) (bufSize : Nat) (content : List Nat) :
    Except String (List LineMatch × Bool) :=
  if bufSize < content.length then Except.error "short read"
  else Except.ok (findLinesGo L p 0 [] (splitLines content))

theorem splitLinesGo_no_newline (l : List Nat) :
    ∀ acc : List Nat, (∀ x ∈ l, x ≠ 10) →
      splitLinesGo acc l =
        if acc.reverse ++ l = [] then [] else [acc.reverse ++ l] := by
  induction l with
  | nil =>
      intro acc _
      simp [splitLinesGo, List.isEmpty_iff]
  | cons x t ih =>
      intro acc h
      have hx : x ≠ 10 := h x (List.mem_cons_self x t)
      rw [splitLinesGo, if_neg hx, ih (x :: acc) (fun y hy => h y (List.mem_cons_of_mem x hy))]
      have : (x :: acc).reverse ++ t = acc.reverse ++ x :: t := by
        simp
      rw [this]

theorem splitLines_replicate_65 (n : Nat) (hn : 0 < n) :
    splitLines (List.replicate n 65) = [List.replicate n 65] := by
  unfold splitLines
  rw [splitLinesGo_no_newline _ _ (by intro x hx; rw [List.eq_of_mem_replicate hx]; omega)]
  simp
  intro hcon
  rw [hcon] at hn
  simp at hn

theorem litScan_97_replicate (n : Nat) :
    ∀ i : Nat, litScan [97] 0 i (List.replicate n 97) = List.range' i n := by
  induction n with
  | zero => intro i; simp [litScan, List.replicate]
  | succ m ih =>
      intro i
      rw [List.replicate_succ, litScan, if_pos (by simp [startsWith])]
      simp only [List.length_cons, List.length_nil]
      rw [ih (i + 1)]
      rw [List.range'_succ]

theorem litOffsets_97_replicate_65 (n : Nat) :
    litOffsets [97] (bytesToLowerASCIIgeneric (List.replicate n 65)) =
      List.range n := by
  unfold litOffsets bytesToLowerASCIIgeneric
  rw [List.map_replicate]
  have : toLowerASCII 65 = 97 := by decide
  rw [this, litScan_97_replicate n 0, List.range_eq_range']

/-- C10: when a file's only line exceeds the maximum searchable line
length, `Find` returns an empty match list with `limitHit = false` and no
error: the over-long line's exclusion is silent and never reported through
the truncation flag. -/
theorem c10_overlong_line_silently_excluded (n : Nat)
    (h : stdLimits.maxLineSize < n) :
    Find stdLimits [97] n (List.replicate n 65) = Except.ok ([], false) := by
  unfold Find
  rw [if_neg (by simp)]
  rw [splitLines_replicate_65 n (by omega)]
  rw [findLinesGo, if_pos (by simpa using h)]
  rw [findLinesGo]
  rfl

/-- Witness for C10 at the boundary+1 size 4097. -/
theorem c10_witness :
    stdLimits.maxLineSize < 4097 ∧
      Find stdLimits [97] 4097 (List.replicate 4097 65) =
        Except.ok ([], false) :=
  ⟨by decide, c10_overlong_line_silently_excluded 4097 (by decide)⟩

/-- C4: with the single-character pattern `a`, a file whose content is one
line of exactly `maxLineSize` (4096) bytes produces a (truncated) match
record, while a single line of 4097 bytes produces no matches and no
error: the file is still read and scanned, only the over-long line is
excluded from matching. -/
theorem c4_line_length_boundary :
    Find stdLimits [97] 4097 (List.replicate 4096 65) =
      Except.ok
        ([{ preview := List.replicate 4096 65, lineNumber := 0
            offsetAndLengths := (List.range 10).map (fun o => (o, 1))
            limitHit := true }], false) ∧
    Find stdLimits [97] 4097 (List.replicate 4097 65) =
      Except.ok ([], false) := by
  constructor
  · unfold Find
    rw [if_neg (by simp only [List.length_replicate]; omega)]
    rw [splitLines_replicate_65 4096 (by omega)]
    rw [findLinesGo, if_neg (by simp only [stdLimits, List.length_replicate]; omega)]
    simp only [litOffsets_97_replicate_65]
    rw [if_neg (by simp [List.isEmpty_iff, List.range_eq_nil])]
    rw [if_neg (by simp only [stdLimits, List.length_nil]; omega)]
    rw [findLinesGo]
    have ht : (List.range 4096).take stdLimits.maxOffsets = List.range 10 := by
      rw [List.take_range]
      rfl
    rw [ht]
    have hh : decide (stdLimits.maxOffsets < (List.range 4096).length) = true := by
      rw [List.length_range]
      rfl
    rw [hh]
    rfl
  · unfold Find
    rw [if_neg (by simp only [List.length_replicate]; omega)]
    rw [splitLines_replicate_65 4097 (by omega)]
    rw [findLinesGo, if_pos (by simp only [stdLimits, List.length_replicate]; omega)]
    rw [findLinesGo]
    rfl

/-- Modelled from the spec: the parsed regex syntax tree handled by the
regex lowering and literal extraction (literal strings, character classes
as rune ranges with an explicit negation flag, concatenation, alternation,
star, and the multiline `^` anchor). -/
inductive Regex where
  | emptyMatch : Regex
  | lit : List Nat → Regex
  | cls : Bool → List (Nat × Nat) → Regex
  | concat : Regex → Regex → Regex
  | alt : Regex → Regex → Regex
  | star : Regex → Regex
  | beginLine : Regex
deriving Repr, DecidableEq

/-- A `+`-quantified group: at least one copy of the body. -/
def plusR (r : Regex) : Regex := Regex.concat r (Regex.star r)

/-- An optional (`?`-quantified) group. -/
def questR (r : Regex) : Regex := Regex.alt r Regex.emptyMatch

/-- Is `x` inside some of the (inclusive) rune ranges? -/
def inRangesB (R : List (Nat × Nat)) (x : Nat) : Bool :=
  R.any (fun pr => decide (pr.1 ≤ x) && decide (x ≤ pr.2))

/-- Character-class membership with the negation flag applied. -/
def clsMatchB (neg : Bool) (R : List (Nat × Nat)) (x : Nat) : Bool :=
  if neg then !(inRangesB R x) else inRangesB R x

/-- ASCII case-insensitive character-class membership: the class matches
`x` when it contains `x` or either ASCII case variant of `x`; the
negation flag is applied to that folded membership. -/
def ciClsMatchB (neg : Bool) (R : List (Nat × Nat)) (x : Nat) : Bool :=
  if neg then
    !(inRangesB R x || inRangesB R (toLowerASCII x) || inRangesB R (toUpperASCII x))
  else
    inRangesB R x || inRangesB R (toLowerASCII x) || inRangesB R (toUpperASCII x)

/-- Fuel-bounded span matcher: does `r` match exactly the bytes of
`buf[i:j]`? The multiline `^` anchor consumes nothing and holds at the
start of the buffer or right after a newline. Out of fuel means `false`;
every claim about it quantifies over or fixes sufficient fuel. -/
def rmatchAtF (buf : List Nat) : Nat → Regex → Nat → Nat → Bool
  | 0, _, _, _ => false
  | f + 1, r, i, j =>
    match r with
    | Regex.emptyMatch => i == j
    | Regex.lit s => sliceB buf i j == s && j == i + s.length
    | Regex.cls neg R =>
        j == i + 1 &&
          (match buf[i]? with
           | some x => clsMatchB neg R x
           | none => false)
    | Regex.concat a b =>
        (List.range' i (j + 1 - i)).any
          (fun k => rmatchAtF buf f a i k && rmatchAtF buf f b k j)
    | Regex.alt a b => rmatchAtF buf f a i j || rmatchAtF buf f b i j
    | Regex.star r0 =>
        i == j ||
          (List.range' (i + 1) (j - i)).any
            (fun k => rmatchAtF buf f r0 i k && rmatchAtF buf f (Regex.star r0) k j)
    | Regex.beginLine => i == j && (i == 0 || buf[i - 1]? == some 10)

/-- Fuel-bounded ASCII case-insensitive span matcher against the original
buffer: literals compare after folding both sides, classes use folded
membership, anchors and structure are as in `rmatchAtF`. -/
def rmatchCIAtF (buf : List Nat) : Nat → Regex → Nat → Nat → Bool
  | 0, _, _, _ => false
  | f + 1, r, i, j =>
    match r with
    | Regex.emptyMatch => i == j
    | Regex.lit s =>
        (sliceB buf i j).map toLowerASCII == s.map toLowerASCII &&
          j == i + s.length
    | Regex.cls neg R =>
        j == i + 1 &&
          (match buf[i]? with
           | some x => ciClsMatchB neg R x
           | none => false)
    | Regex.concat a b =>
        (List.range' i (j + 1 - i)).any
          (fun k => rmatchCIAtF buf f a i k && rmatchCIAtF buf f b k j)
    | Regex.alt a b => rmatchCIAtF buf f a i j || rmatchCIAtF buf f b i j
    | Regex.star r0 =>
        i == j ||
          (List.range' (i + 1) (j - i)).any
            (fun k => rmatchCIAtF buf f r0 i k && rmatchCIAtF buf f (Regex.star r0) k j)
    | Regex.beginLine => i == j && (i == 0 || buf[i - 1]? == some 10)

/-- Lowering of one rune range for a non-negated class: the part below
`A` and the part above `Z` are kept, the overlap with `A`-`Z` is mapped to
`a`-`z`. -/
def lowerRange (pr : Nat × Nat) : List (Nat × Nat) :=
  (if pr.1 < 65 then [(pr.1, min pr.2 64)] else []) ++
    (if pr.1 ≤ 90 ∧ 65 ≤ pr.2 then [(max pr.1 65 + 32, min pr.2 90 + 32)] else []) ++
      (if 90 < pr.2 then [(max pr.1 91, pr.2)] else [])

/-- The lowercase image of one range's overlap with `A`-`Z` (what a
negated class additionally excludes). -/
def upperLoweredParts (pr : Nat × Nat) : List (Nat × Nat) :=
  if pr.1 ≤ 90 ∧ 65 ≤ pr.2 then [(max pr.1 65 + 32, min pr.2 90 + 32)] else []

/-- All ranges of a non-negated class, lowered. -/
def lowerRangesFn (R : List (Nat × Nat)) : List (Nat × Nat) :=
  R.flatMap lowerRange

/-- The lowered images of a class's uppercase members. -/
def upperLoweredFn (R : List (Nat × Nat)) : List (Nat × Nat) :=
  R.flatMap upperLoweredParts

/-- Modelled from the spec: `lowerRegexpASCII` (missing from src) —
rewrites the tree so matching against an already-lowercased buffer is
equivalent to ASCII case-insensitive matching: literals fold to
lowercase; a non-negated class has its uppercase ranges mapped to
lowercase (a resulting single-member class degenerates to a literal); a
negated class keeps its ranges and additionally excludes the lowered
images of its uppercase members; anchors and all structure survive
unchanged. -/
def lowerRegexpASCII : Regex → Regex
  | Regex.emptyMatch => Regex.emptyMatch
  | Regex.lit s => Regex.lit (s.map toLowerASCII)
  | Regex.cls true R => Regex.cls true (R ++ upperLoweredFn R)
  | Regex.cls false R =>
      match lowerRangesFn R with
      | [(a, b)] => if a = b then Regex.lit [a] else Regex.cls false [(a, b)]
      | R' => Regex.cls false R'
  | Regex.concat a b => Regex.concat (lowerRegexpASCII a) (lowerRegexpASCII b)
  | Regex.alt a b => Regex.alt (lowerRegexpASCII a) (lowerRegexpASCII b)
  | Regex.star r => Regex.star (lowerRegexpASCII r)
  | Regex.beginLine => Regex.beginLine

theorem sliceB_map (g : Nat → Nat) (l : List Nat) (i j : Nat) :
    sliceB (l.map g) i j = (sliceB l i j).map g := by
  unfold sliceB
  rw [← List.map_drop, ← List.map_take]

theorem anyCongr {α : Type} {l : List α} {f g : α → Bool}
    (h : ∀ x ∈ l, f x = g x) : l.any f = l.any g := by
  induction l with
  | nil => rfl
  | cons x t ih =>
      rw [List.any_cons, List.any_cons, h x (List.mem_cons_self x t),
        ih (fun y hy => h y (List.mem_cons_of_mem x hy))]

theorem toLowerASCII_eq_ten (x : Nat) : (toLowerASCII x = 10) ↔ (x = 10) := by
  unfold toLowerASCII
  split_ifs with h
  · omega
  · exact Iff.rfl

theorem lowered_newline_check (buf : List Nat) (k : Nat) :
    ((buf.map toLowerASCII)[k]? == some 10) = (buf[k]? == some 10) := by
  rw [List.getElem?_map]
  rcases h : buf[k]? with _ | x
  · rfl
  · rw [Bool.eq_iff_iff]
    simp [toLowerASCII_eq_ten]

theorem inRangesB_append (R S : List (Nat × Nat)) (x : Nat) :
    inRangesB (R ++ S) x = (inRangesB R x || inRangesB S x) := by
  unfold inRangesB
  rw [List.any_append]

theorem lowerRange_spec (lo hi x : Nat) :
    inRangesB (lowerRange (lo, hi)) (toLowerASCII x) =
      (inRangesB [(lo, hi)] x || inRangesB [(lo, hi)] (toLowerASCII x) ||
        inRangesB [(lo, hi)] (toUpperASCII x)) := by
  rw [Bool.eq_iff_iff]
  unfold lowerRange inRangesB toLowerASCII toUpperASCII
  simp only [List.any_append, List.any_cons, List.any_nil, Bool.or_eq_true,
    Bool.and_eq_true, decide_eq_true_eq, Bool.or_false]
  split_ifs <;> simp_all <;> omega

theorem upperLowered_spec (lo hi x : Nat) :
    (inRangesB [(lo, hi)] (toLowerASCII x) ||
      inRangesB (upperLoweredParts (lo, hi)) (toLowerASCII x)) =
      (inRangesB [(lo, hi)] x || inRangesB [(lo, hi)] (toLowerASCII x) ||
        inRangesB [(lo, hi)] (toUpperASCII x)) := by
  rw [Bool.eq_iff_iff]
  unfold upperLoweredParts inRangesB toLowerASCII toUpperASCII
  simp only [List.any_cons, List.any_nil, Bool.or_eq_true, Bool.and_eq_true,
    decide_eq_true_eq, Bool.or_false]
  split_ifs <;> simp_all <;> omega

theorem lowerRangesFn_spec (R : List (Nat × Nat)) (x : Nat) :
    inRangesB (lowerRangesFn R) (toLowerASCII x) =
      (inRangesB R x || inRangesB R (toLowerASCII x) ||
        inRangesB R (toUpperASCII x)) := by
  induction R with
  | nil => rfl
  | cons pr rest ih =>
      rcases pr with ⟨lo, hi⟩
      have hsplit : lowerRangesFn ((lo, hi) :: rest) =
          lowerRange (lo, hi) ++ lowerRangesFn rest := by
        unfold lowerRangesFn
        rw [List.flatMap_cons]
      rw [hsplit, inRangesB_append, lowerRange_spec, ih]
      have hc : ∀ y : Nat, inRangesB ((lo, hi) :: rest) y =
          (inRangesB [(lo, hi)] y || inRangesB rest y) := by
        intro y
        unfold inRangesB
        rw [List.any_cons, List.any_cons, List.any_nil, Bool.or_false]
      rw [hc, hc, hc]
      rw [Bool.eq_iff_iff]
      simp only [Bool.or_eq_true]
      tauto

theorem negLowered_spec (R : List (Nat × Nat)) (x : Nat) :
    inRangesB (R ++ upperLoweredFn R) (toLowerASCII x) =
      (inRangesB R x || inRangesB R (toLowerASCII x) ||
        inRangesB R (toUpperASCII x)) := by
  induction R with
  | nil => rfl
  | cons pr rest ih =>
      rcases pr with ⟨lo, hi⟩
      have hsplit : upperLoweredFn ((lo, hi) :: rest) =
          upperLoweredParts (lo, hi) ++ upperLoweredFn rest := by
        unfold upperLoweredFn
        rw [List.flatMap_cons]
      have hc : ∀ y : Nat, inRangesB ((lo, hi) :: rest) y =
          (inRangesB [(lo, hi)] y || inRangesB rest y) := by
        intro y
        unfold inRangesB
        rw [List.any_cons, List.any_cons, List.any_nil, Bool.or_false]
      rw [hsplit]
      have h1 : inRangesB (((lo, hi) :: rest) ++
          (upperLoweredParts (lo, hi) ++ upperLoweredFn rest)) (toLowerASCII x) =
          ((inRangesB [(lo, hi)] (toLowerASCII x) ||
            inRangesB (upperLoweredParts (lo, hi)) (toLowerASCII x)) ||
            inRangesB (rest ++ upperLoweredFn rest) (toLowerASCII x)) := by
        rw [List.cons_append, inRangesB_append]
        rw [show (lo, hi) :: (rest ++ (upperLoweredParts (lo, hi) ++ upperLoweredFn rest)) =
          ((lo, hi) :: rest) ++ (upperLoweredParts (lo, hi) ++ upperLoweredFn rest) from rfl]
        rw [inRangesB_append, hc, inRangesB_append]
        rw [Bool.eq_iff_iff]
        simp only [Bool.or_eq_true]
        tauto
      rw [h1, upperLowered_spec, ih, hc x, hc (toLowerASCII x), hc (toUpperASCII x)]
      rw [Bool.eq_iff_iff]
      simp only [Bool.or_eq_true]
      tauto

theorem sliceB_single (buf : List Nat) (i : Nat) :
    sliceB buf i (i + 1) = (buf[i]?).toList := by
  unfold sliceB
  rw [show i + 1 - i = 1 from by omega, List.take_one, List.head?_drop]

theorem rmatchAtF_lowered_cls_false (buf' : List Nat) (f : Nat)
    (R : List (Nat × Nat)) (i j : Nat) :
    rmatchAtF buf' (f + 1) (lowerRegexpASCII (Regex.cls false R)) i j =
      (j == i + 1 &&
        (match buf'[i]? with
         | some y => inRangesB (lowerRangesFn R) y
         | none => false)) := by
  have hdef : lowerRegexpASCII (Regex.cls false R) =
      (match lowerRangesFn R with
       | [(a, b)] => if a = b then Regex.lit [a] else Regex.cls false [(a, b)]
       | R' => Regex.cls false R') := rfl
  rcases hR : lowerRangesFn R with _ | ⟨⟨a, b⟩, rest⟩
  · rw [hdef, hR]
    rfl
  · rcases rest with _ | ⟨pr2, rest2⟩
    · by_cases hab : a = b
      · subst hab
        rw [hdef, hR]
        show rmatchAtF buf' (f + 1)
          (if a = a then Regex.lit [a] else Regex.cls false [(a, a)]) i j = _
        rw [if_pos rfl]
        rw [Bool.eq_iff_iff]
        simp only [rmatchAtF, List.length_cons, List.length_nil, Nat.zero_add,
          Bool.and_eq_true, beq_iff_eq]
        constructor
        · rintro ⟨h1, h2⟩
          subst h2
          rw [sliceB_single] at h1
          refine ⟨rfl, ?_⟩
          rcases hb : buf'[i]? with _ | y
          · rw [hb] at h1
            simp at h1
          · rw [hb] at h1
            simp only [Option.toList_some, List.cons.injEq] at h1
            show inRangesB [(a, a)] y = true
            rw [h1.1]
            simp [inRangesB]
        · rintro ⟨h2, h1⟩
          subst h2
          rcases hb : buf'[i]? with _ | y
          · rw [hb] at h1
            simp at h1
          · rw [hb] at h1
            have h1' : inRangesB [(a, a)] y = true := h1
            have hy : y = a := by
              simp only [inRangesB, List.any_cons, List.any_nil, Bool.or_false,
                Bool.and_eq_true, decide_eq_true_eq] at h1'
              omega
            subst hy
            refine ⟨?_, rfl⟩
            rw [sliceB_single, hb]
            rfl
      · rw [hdef, hR]
        show rmatchAtF buf' (f + 1)
          (if a = b then Regex.lit [a] else Regex.cls false [(a, b)]) i j = _
        rw [if_neg hab]
        rfl
    · rw [hdef, hR]
      rfl

/-- The spec's lowering equivalence, fuel-pointwise: ASCII
case-insensitive matching of `r` at any span of the original buffer
coincides with plain matching of the lowered tree at the same span of the
fully lowercased buffer. -/
theorem rmatchCI_eq_lowered (f : Nat) :
    ∀ (buf : List Nat) (r : Regex) (i j : Nat),
      rmatchCIAtF buf f r i j =
        rmatchAtF (buf.map toLowerASCII) f (lowerRegexpASCII r) i j := by
  induction f with
  | zero =>
      intro buf r i j
      rfl
  | succ f ih =>
      intro buf r i j
      cases r with
      | emptyMatch => rfl
      | lit s =>
          simp only [rmatchCIAtF, lowerRegexpASCII, rmatchAtF]
          rw [sliceB_map, List.length_map]
      | cls neg R =>
          cases neg with
          | true =>
              simp only [rmatchCIAtF, lowerRegexpASCII, rmatchAtF]
              rw [List.getElem?_map]
              rcases hb : buf[i]? with _ | x
              · rfl
              · show (j == i + 1 && ciClsMatchB true R x) =
                  (j == i + 1 && clsMatchB true (R ++ upperLoweredFn R) (toLowerASCII x))
                unfold ciClsMatchB clsMatchB
                rw [if_pos rfl, if_pos rfl, negLowered_spec]
          | false =>
              rw [rmatchAtF_lowered_cls_false]
              simp only [rmatchCIAtF]
              rw [List.getElem?_map]
              rcases hb : buf[i]? with _ | x
              · rfl
              · show (j == i + 1 && ciClsMatchB false R x) =
                  (j == i + 1 && inRangesB (lowerRangesFn R) (toLowerASCII x))
                unfold ciClsMatchB
                rw [if_neg (by simp), lowerRangesFn_spec]
      | concat a b =>
          simp only [rmatchCIAtF, lowerRegexpASCII, rmatchAtF]
          apply anyCongr
          intro k _
          rw [ih buf a i k, ih buf b k j]
      | alt a b =>
          simp only [rmatchCIAtF, lowerRegexpASCII, rmatchAtF]
          rw [ih buf a i j, ih buf b i j]
      | star r0 =>
          simp only [rmatchCIAtF, lowerRegexpASCII, rmatchAtF]
          have hcong : (List.range' (i + 1) (j - i)).any
              (fun k => rmatchCIAtF buf f r0 i k &&
                rmatchCIAtF buf f (Regex.star r0) k j) =
              (List.range' (i + 1) (j - i)).any
              (fun k => rmatchAtF (buf.map toLowerASCII) f (lowerRegexpASCII r0) i k &&
                rmatchAtF (buf.map toLowerASCII) f (Regex.star (lowerRegexpASCII r0)) k j) := by
            apply anyCongr
            intro k _
            rw [ih buf r0 i k, ih buf (Regex.star r0) k j]
            rfl
          rw [hcong]
      | beginLine =>
          simp only [rmatchCIAtF, lowerRegexpASCII, rmatchAtF]
          rw [lowered_newline_check]

theorem filterMapCongr {α β : Type} {l : List α} {f g : α → Option β}
    (h : ∀ x ∈ l, f x = g x) : l.filterMap f = l.filterMap g := by
  induction l with
  | nil => rfl
  | cons x t ih =>
      rw [List.filterMap_cons, List.filterMap_cons, h x (List.mem_cons_self x t),
        ih (fun y hy => h y (List.mem_cons_of_mem x hy))]

theorem flatMapCongr {α β : Type} {l : List α} {f g : α → List β}
    (h : ∀ x ∈ l, f x = g x) : l.flatMap f = l.flatMap g := by
  induction l with
  | nil => rfl
  | cons x t ih =>
      rw [List.flatMap_cons, List.flatMap_cons, h x (List.mem_cons_self x t),
        ih (fun y hy => h y (List.mem_cons_of_mem x hy))]

/-- All spans `[i, j)` of the buffer that `r` matches (plain matcher). -/
def matchSpansF (f : Nat) (r : Regex) (buf : List Nat) : List (Nat × Nat) :=
  (List.range (buf.length + 1)).flatMap (fun i =>
    (List.range (buf.length + 1)).filterMap (fun j =>
      if i ≤ j ∧ rmatchAtF buf f r i j = true then some (i, j) else none))

/-- All spans `[i, j)` of the buffer that `r` matches ASCII
case-insensitively (matching performed on the original buffer). -/
def matchSpansCIF (f : Nat) (r : Regex) (buf : List Nat) : List (Nat × Nat) :=
  (List.range (buf.length + 1)).flatMap (fun i =>
    (List.range (buf.length + 1)).filterMap (fun j =>
      if i ≤ j ∧ rmatchCIAtF buf f r i j = true then some (i, j) else none))

/-- C3: for every regex tree and buffer (at every fuel), matching the
lowered tree against the fully ASCII-lowercased buffer yields exactly the
match spans of case-insensitive matching against the original buffer; in
particular `[A-Z]` expands to `[a-z]`, `[^A-Z]` to `[^A-Za-z]` with
negation preserved, the single-member class `[A]` degenerates to the
literal `a`, and a multiline `^` anchor prefix survives structurally
unchanged. -/
theorem c3_lowerRegexpASCII_spans_and_classes :
    (∀ (f : Nat) (r : Regex) (buf : List Nat),
      matchSpansCIF f r buf =
        matchSpansF f (lowerRegexpASCII r) (buf.map toLowerASCII)) ∧
    lowerRegexpASCII (Regex.cls false [(65, 90)]) = Regex.cls false [(97, 122)] ∧
    lowerRegexpASCII (Regex.cls true [(65, 90)]) =
      Regex.cls true [(65, 90), (97, 122)] ∧
    lowerRegexpASCII (Regex.cls false [(65, 65)]) = Regex.lit [97] ∧
    (∀ r : Regex, lowerRegexpASCII (Regex.concat Regex.beginLine r) =
      Regex.concat Regex.beginLine (lowerRegexpASCII r)) := by
  refine ⟨?_, by decide, by decide, by decide, fun r => rfl⟩
  intro f r buf
  unfold matchSpansCIF matchSpansF
  rw [List.length_map]
  apply flatMapCongr
  intro i _
  apply filterMapCongr
  intro j _
  rw [rmatchCI_eq_lowered]

/-- The longest literal guaranteed to occur in every match: literals are
themselves; a concatenation keeps the longer of its parts; alternations,
classes, quantified groups and anchors yield the empty literal (`plusR`
and `questR` being concatenation/alternation forms, a `+` group keeps its
body's literal and a `?` group yields empty). Modelled from the spec
(`longestLiteral` is missing from src). -/
def longestLiteral : Regex → List Nat
  | Regex.lit s => s
  | Regex.concat a b =>
      if (longestLiteral a).length < (longestLiteral b).length then
        longestLiteral b
      else longestLiteral a
  | _ => []

/-- Does `p` occur verbatim in `s` starting at byte offset `i`? -/
def containsAt (p s : List Nat) (i : Nat) : Bool :=
  sliceB s i (i + p.length) == p

/-- Does `p` occur verbatim anywhere in `s`? -/
def containsSeq (p s : List Nat) : Bool :=
  (List.range (s.length + 1)).any (containsAt p s)

theorem containsAt_spec {p s : List Nat} {i : Nat} :
    containsAt p s i = true ↔ (s.drop i).take p.length = p := by
  unfold containsAt sliceB
  rw [show i + p.length - i = p.length from by omega, beq_iff_eq]

theorem containsSeq_exists {p s : List Nat} :
    containsSeq p s = true ↔
      ∃ i, i ≤ s.length ∧ (s.drop i).take p.length = p := by
  unfold containsSeq
  rw [List.any_eq_true]
  constructor
  · rintro ⟨i, hi, hc⟩
    exact ⟨i, by simp at hi; omega, containsAt_spec.mp hc⟩
  · rintro ⟨i, hi, hc⟩
    exact ⟨i, by simp; omega, containsAt_spec.mpr hc⟩

theorem containsSeq_nil (s : List Nat) : containsSeq [] s = true := by
  rw [containsSeq_exists]
  exact ⟨0, by omega, by simp⟩

theorem containsSeq_self (p : List Nat) : containsSeq p p = true := by
  rw [containsSeq_exists]
  exact ⟨0, by omega, by simp⟩

theorem containsSeq_append_right {p t : List Nat} (v : List Nat)
    (h : containsSeq p t = true) : containsSeq p (t ++ v) = true := by
  rw [containsSeq_exists] at h
  rcases h with ⟨i, hi, hc⟩
  have hplen : p.length ≤ (t.drop i).length := by
    have := congrArg List.length hc
    rw [List.length_take] at this
    omega
  rw [containsSeq_exists]
  refine ⟨i, by rw [List.length_append]; omega, ?_⟩
  rw [List.drop_append_of_le_length hi, List.take_append_of_le_length hplen, hc]

theorem containsSeq_append_left {p t : List Nat} (u : List Nat)
    (h : containsSeq p t = true) : containsSeq p (u ++ t) = true := by
  rw [containsSeq_exists] at h
  rcases h with ⟨i, hi, hc⟩
  rw [containsSeq_exists]
  refine ⟨u.length + i, by rw [List.length_append]; omega, ?_⟩
  rw [List.drop_append, hc]

theorem sliceB_split (buf : List Nat) {i k j : Nat} (hik : i ≤ k) (hkj : k ≤ j) :
    sliceB buf i j = sliceB buf i k ++ sliceB buf k j := by
  unfold sliceB
  rw [show j - i = (k - i) + (j - k) from by omega, List.take_add, List.drop_drop,
    show i + (k - i) = k from by omega]

theorem longestLiteral_sound_aux (f : Nat) :
    ∀ (buf : List Nat) (r : Regex) (i j : Nat),
      rmatchAtF buf f r i j = true →
      containsSeq (longestLiteral r) (sliceB buf i j) = true := by
  induction f with
  | zero =>
      intro buf r i j h
      exact absurd h (by simp [rmatchAtF])
  | succ f ih =>
      intro buf r i j h
      cases r with
      | emptyMatch => exact containsSeq_nil _
      | beginLine => exact containsSeq_nil _
      | cls neg R => exact containsSeq_nil _
      | alt a b => exact containsSeq_nil _
      | star r0 => exact containsSeq_nil _
      | lit s =>
          simp only [rmatchAtF, Bool.and_eq_true, beq_iff_eq] at h
          rw [show longestLiteral (Regex.lit s) = s from rfl, h.1]
          exact containsSeq_self _
      | concat a b =>
          simp only [rmatchAtF, List.any_eq_true] at h
          rcases h with ⟨k, hk, hab⟩
          rw [List.mem_range'_1] at hk
          have hik : i ≤ k := hk.1
          have hkj : k ≤ j := by omega
          rcases Bool.and_eq_true_iff.mp hab with ⟨ha, hb⟩
          have hca := ih buf a i k ha
          have hcb := ih buf b k j hb
          rw [sliceB_split buf hik hkj]
          show containsSeq (longestLiteral (Regex.concat a b)) _ = true
          rw [show longestLiteral (Regex.concat a b) =
            (if (longestLiteral a).length < (longestLiteral b).length then
              longestLiteral b else longestLiteral a) from rfl]
          split_ifs with hlt
          · exact containsSeq_append_left _ hcb
          · exact containsSeq_append_right _ hca

/-- C8: `longestLiteral` is a sound pre-filter — whenever the regex
matches a span (at any fuel), the extracted literal occurs verbatim in the
matched bytes — and it returns the empty literal for alternations,
optional groups and star-quantified groups, while a `+`-quantified group
keeps its body's literal. -/
theorem c8_longestLiteral_sound :
    (∀ (f : Nat) (buf : List Nat) (r : Regex) (i j : Nat),
      rmatchAtF buf f r i j = true →
      containsSeq (longestLiteral r) (sliceB buf i j) = true) ∧
    (∀ a b : Regex, longestLiteral (Regex.alt a b) = []) ∧
    (∀ r : Regex, longestLiteral (questR r) = []) ∧
    (∀ r : Regex, longestLiteral (Regex.star r) = []) ∧
    (∀ r : Regex, longestLiteral (plusR r) = longestLiteral r) := by
  refine ⟨longestLiteral_sound_aux, fun a b => rfl, fun r => rfl, fun r => rfl,
    fun r => ?_⟩
  show (if (longestLiteral r).length < (longestLiteral (Regex.star r)).length
    then longestLiteral (Regex.star r) else longestLiteral r) = longestLiteral r
  rw [show longestLiteral (Regex.star r) = [] from rfl]
  simp

/-- Witness for C8: the regex `fo(o)*` (as `lit "fo" ⬝ (lit "o")*`)
matches the span `[1, 4)` of the buffer `xfoo`, and its longest literal
`fo` occurs in the matched bytes. -/
theorem c8_witness :
    rmatchAtF [120, 102, 111, 111] 6
      (Regex.concat (Regex.lit [102, 111]) (Regex.star (Regex.lit [111])))
      1 4 = true ∧
    containsSeq
      (longestLiteral
        (Regex.concat (Regex.lit [102, 111]) (Regex.star (Regex.lit [111]))))
      (sliceB [120, 102, 111, 111] 1 4) = true :=
  ⟨by decide,
    c8_longestLiteral_sound.1 6 [120, 102, 111, 111]
      (Regex.concat (Regex.lit [102, 111]) (Regex.star (Regex.lit [111])))
      1 4 (by decide)⟩

/-- Structural size of a regex tree (used to bound matcher fuel). -/
def rsize : Regex → Nat
  | Regex.concat a b => rsize a + rsize b + 1
  | Regex.alt a b => rsize a + rsize b + 1
  | Regex.star r => rsize r + 1
  | _ => 1

/-- Does the regex match somewhere inside `s`? (the include-pattern test:
a path is accepted when the pattern matches some span of it). -/
def containsMatchF (r : Regex) (s : List Nat) : Bool :=
  (List.range (s.length + 1)).any (fun i =>
    (List.range (s.length + 1)).any (fun j =>
      decide (i ≤ j) && rmatchAtF s ((rsize r + 1) * (s.length + 2)) r i j))

/-- Modelled from the spec: the per-file work of the concurrent scanner
(missing from src): a file is skipped unless every include pattern
individually matches somewhere in its path (AND semantics); an empty
content pattern is valid and matches every file; otherwise a content scan
produces the file's line matches, and a file with no content matches may
still match by path when requested. -/
def processFile (L : Limits) (p : List Nat) (includeRes : List Regex)
    (matchesContent matchesPath : Bool) (path content : List Nat) :
    Option FileMatch :=
  if includeRes.all (fun r => containsMatchF r path) then
    if p.isEmpty then some { path := path, lineMatches := [], limitHit := false }
    else
      let res := if matchesContent then findLinesGo L p 0 [] (splitLines content)
        else ([], false)
      if res.1.isEmpty then
        if matchesPath && containsSeq (bytesToLowerASCIIgeneric p)
            (bytesToLowerASCIIgeneric path) then
          some { path := path, lineMatches := [], limitHit := false }
        else none
      else some { path := path, lineMatches := res.1, limitHit := res.2 }
  else none

/-- The effective cap on reported files: a zero request-level limit means
the process-wide default. -/
def effLimit (L : Limits) (fileMatchLimit : Nat) : Nat :=
  if fileMatchLimit = 0 then L.maxFileMatches
  else min fileMatchLimit L.maxFileMatches

/-- Modelled from the spec: the scanner's merge loop (reference
sequential semantics of `concurrentFind`, missing from src): files are
consumed in order; once the file-match cap is reached remaining files are
not scanned and the overall `limitHit` is true. -/
def concurrentFindGo (L : Limits) (p : List Nat) (includeRes : List Regex)
    (fileMatchLimit : Nat) (matchesContent matchesPath : Bool) :
    List (List Nat × List Nat) → List FileMatch → Bool → List FileMatch × Bool
  | [], acc, hit => (acc.reverse, hit)
  | pc :: rest, acc, hit =>
      if effLimit L fileMatchLimit ≤ acc.length then (acc.reverse, true)
      else
        match processFile L p includeRes matchesContent matchesPath pc.1 pc.2 with
        | none => concurrentFindGo L p includeRes fileMatchLimit
            matchesContent matchesPath rest acc hit
        | some fm => concurrentFindGo L p includeRes fileMatchLimit
            matchesContent matchesPath rest (fm :: acc) hit

/-- Modelled from the spec: `concurrentFind` over an archive given as an
ordered list of (path, content) entries. -/
def concurrentFind (L : Limits) (p : List Nat) (includeRes : List Regex)
    (fileMatchLimit : Nat) (matchesContent matchesPath : Bool)
    (files : List (List Nat × List Nat)) : List FileMatch × Bool :=
  concurrentFindGo L p includeRes fileMatchLimit matchesContent matchesPath
    files [] false

/-- Modelled from the spec (§5): the worker pool merges per-file results
in completion order, which is not guaranteed to follow archive order;
`sched` is the completion order of archive indices for one concrete run. -/
def concurrentFindSched (L : Limits) (p : List Nat) (includeRes : List Regex)
    (fileMatchLimit : Nat) (matchesContent matchesPath : Bool)
    (files : List (List Nat × List Nat)) (sched : List Nat) :
    List FileMatch × Bool :=
  concurrentFindGo L p includeRes fileMatchLimit matchesContent matchesPath
    (sched.filterMap (fun idx => files[idx]?)) [] false

/-- The seven-file archive of the path-matching test: paths
`a, a/b, a/c, ab, b/a, ba, c/d`, all with empty content. -/
def c5Archive : List (List Nat × List Nat) :=
  [([97], []), ([97, 47, 98], []), ([97, 47, 99], []), ([97, 98], []),
    ([98, 47, 97], []), ([98, 97], []), ([99, 47, 100], [])]

/-- C5: with include patterns `a` and `b` compiled as regexes and an empty
content pattern, the engine returns matches for exactly the paths
`a/b, ab, b/a, ba`: a path is accepted only if every include pattern
individually matches somewhere in it (AND semantics), and the empty
pattern matches every file. -/
theorem c5_include_patterns_and_semantics :
    (concurrentFind stdLimits [] [Regex.lit [97], Regex.lit [98]] 10 true true
      c5Archive).1.map (fun fm => fm.path) =
      [[97, 47, 98], [97, 98], [98, 47, 97], [98, 97]] := by
  decide

/-- One line of the max-matches stress archive: `k + 1` copies of
`foo ` (so `k + 1` pattern occurrences on the line). -/
def c1Line (k : Nat) : List Nat :=
  (List.replicate (k + 1) [102, 111, 111, 32]).flatten

/-- One file's content of the stress archive: `m + 1` such lines, each
newline-terminated. -/
def c1Content (m k : Nat) : List Nat :=
  (List.replicate (m + 1) (c1Line k ++ [10])).flatten

/-- The stress archive: `n + 1` files of that content. -/
def c1Archive (n m k : Nat) : List (List Nat × List Nat) :=
  (List.range (n + 1)).map (fun i => ([i], c1Content m k))

theorem map_lower_blocks (t : Nat) :
    List.map toLowerASCII (List.replicate t [102, 111, 111, 32]).flatten =
      (List.replicate t [102, 111, 111, 32]).flatten := by
  induction t with
  | zero => rfl
  | succ u ih =>
      rw [List.replicate_succ, List.flatten_cons, List.map_append, ih]
      rfl

theorem c1Line_lower (k : Nat) :
    bytesToLowerASCIIgeneric (c1Line k) = c1Line k := by
  unfold c1Line bytesToLowerASCIIgeneric
  exact map_lower_blocks (k + 1)

theorem c1Line_length (k : Nat) : (c1Line k).length = 4 * (k + 1) := by
  unfold c1Line
  induction k with
  | zero => rfl
  | succ t ih =>
      rw [List.replicate_succ, List.flatten_cons, List.length_append, ih]
      simp
      omega

theorem litScan_c1Line_step (rest : List Nat) (i : Nat) :
    litScan [102, 111, 111] 0 i (102 :: 111 :: 111 :: 32 :: rest) =
      i :: litScan [102, 111, 111] 0 (i + 4) rest := rfl

theorem litScan_c1Line_len (k : Nat) :
    ∀ i, (litScan [102, 111, 111] 0 i (c1Line k)).length = k + 1 := by
  unfold c1Line
  induction k with
  | zero =>
      intro i
      rfl
  | succ t ih =>
      intro i
      rw [List.replicate_succ, List.flatten_cons]
      rw [show ([102, 111, 111, 32] ++ (List.replicate (t + 1) [102, 111, 111, 32]).flatten)
        = 102 :: 111 :: 111 :: 32 :: (List.replicate (t + 1) [102, 111, 111, 32]).flatten
        from rfl]
      rw [litScan_c1Line_step, List.length_cons, ih (i + 4)]

theorem splitLinesGo_line (l : List Nat) :
    ∀ (acc rest : List Nat), (∀ x ∈ l, x ≠ 10) →
      splitLinesGo acc (l ++ 10 :: rest) =
        (acc.reverse ++ l) :: splitLinesGo [] rest := by
  induction l with
  | nil =>
      intro acc rest _
      rw [List.nil_append, splitLinesGo, if_pos rfl]
      simp
  | cons x t ih =>
      intro acc rest h
      rw [List.cons_append, splitLinesGo,
        if_neg (h x (List.mem_cons_self x t)),
        ih (x :: acc) rest (fun y hy => h y (List.mem_cons_of_mem x hy))]
      simp

theorem blocks_no_newline (t : Nat) :
    ∀ x ∈ (List.replicate t [102, 111, 111, 32]).flatten, x ≠ 10 := by
  induction t with
  | zero =>
      intro x hx
      simp at hx
  | succ u ih =>
      intro x hx
      rw [List.replicate_succ, List.flatten_cons, List.mem_append] at hx
      rcases hx with hx | hx
      · exact (by decide : ∀ y ∈ ([102, 111, 111, 32] : List Nat), y ≠ 10) x hx
      · exact ih x hx

theorem c1Line_no_newline (k : Nat) : ∀ x ∈ c1Line k, x ≠ 10 := by
  unfold c1Line
  exact blocks_no_newline (k + 1)

theorem splitLines_c1Content (m k : Nat) :
    splitLines (c1Content m k) = List.replicate (m + 1) (c1Line k) := by
  unfold c1Content splitLines
  induction m with
  | zero =>
      rw [List.replicate_succ, List.flatten_cons]
      rw [show c1Line k ++ [10] ++ (List.replicate 0 (c1Line k ++ [10])).flatten =
        c1Line k ++ 10 :: [] from by simp]
      rw [splitLinesGo_line (c1Line k) [] [] (c1Line_no_newline k)]
      rfl
  | succ t ih =>
      rw [List.replicate_succ, List.flatten_cons]
      rw [show c1Line k ++ [10] ++ (List.replicate (t + 1) (c1Line k ++ [10])).flatten =
        c1Line k ++ 10 :: (List.replicate (t + 1) (c1Line k ++ [10])).flatten
        from by simp]
      rw [splitLinesGo_line (c1Line k) [] _ (c1Line_no_newline k)]
      rw [ih]
      simp [List.replicate_succ]

/-- The per-line record invariant of the stress archive: truncated to
exactly `maxOffsets` offset pairs with the line-level flag set. -/
def GoodLine (L : Limits) (lm : LineMatch) : Prop :=
  lm.limitHit = true ∧ lm.offsetAndLengths.length = L.maxOffsets

theorem findLinesGo_c1 (L : Limits) (k : Nat)
    (hsize : 4 * (k + 1) ≤ L.maxLineSize) (hO : L.maxOffsets ≤ k) :
    ∀ (t n : Nat) (acc : List LineMatch),
      acc.length ≤ L.maxLineMatches →
      (∀ lm ∈ acc, GoodLine L lm) →
      ((findLinesGo L [102, 111, 111] n acc (List.replicate t (c1Line k))).1.length =
          min (t + acc.length) L.maxLineMatches ∧
        (findLinesGo L [102, 111, 111] n acc (List.replicate t (c1Line k))).2 =
          decide (L.maxLineMatches < t + acc.length) ∧
        ∀ lm ∈ (findLinesGo L [102, 111, 111] n acc
            (List.replicate t (c1Line k))).1, GoodLine L lm) := by
  have hoffs : (litOffsets [102, 111, 111] (c1Line k)).length = k + 1 :=
    litScan_c1Line_len k 0
  intro t
  induction t with
  | zero =>
      intro n acc hlen hgood
      refine ⟨?_, ?_, ?_⟩
      · show acc.reverse.length = _
        rw [List.length_reverse]
        omega
      · show false = decide (L.maxLineMatches < 0 + acc.length)
        rw [eq_comm, decide_eq_false_iff_not]
        omega
      · intro lm hlm
        exact hgood lm (List.mem_reverse.mp hlm)
  | succ t ih =>
      intro n acc hlen hgood
      rw [List.replicate_succ, findLinesGo,
        if_neg (by rw [c1Line_length]; omega),
        c1Line_lower,
        if_neg (by
          rw [List.isEmpty_iff]
          intro hc
          rw [hc] at hoffs
          simp at hoffs)]
      by_cases hacc : L.maxLineMatches ≤ acc.length
      · rw [if_pos hacc]
        refine ⟨?_, ?_, ?_⟩
        · show acc.reverse.length = _
          rw [List.length_reverse]
          omega
        · show true = _
          have hlt : L.maxLineMatches < t + 1 + acc.length := by omega
          simp [hlt]
        · intro lm hlm
          exact hgood lm (List.mem_reverse.mp hlm)
      · rw [if_neg hacc]
        have hrecGood : GoodLine L
            { preview := c1Line k, lineNumber := n
              offsetAndLengths :=
                ((litOffsets [102, 111, 111] (c1Line k)).take
                  L.maxOffsets).map (fun o => (o, [102, 111, 111].length))
              limitHit :=
                decide (L.maxOffsets <
                  (litOffsets [102, 111, 111] (c1Line k)).length) } := by
          constructor
          · show decide _ = true
            rw [hoffs]
            simp
            omega
          · show (((litOffsets [102, 111, 111] (c1Line k)).take
              L.maxOffsets).map (fun o => (o, [102, 111, 111].length))).length = _
            rw [List.length_map, List.length_take, hoffs]
            omega
        have h := ih (n + 1)
          ({ preview := c1Line k, lineNumber := n
             offsetAndLengths :=
               ((litOffsets [102, 111, 111] (c1Line k)).take
                 L.maxOffsets).map (fun o => (o, [102, 111, 111].length))
             limitHit :=
               decide (L.maxOffsets <
                 (litOffsets [102, 111, 111] (c1Line k)).length) } :: acc)
          (by rw [List.length_cons]; omega)
          (by
            intro lm hlm
            rcases List.mem_cons.mp hlm with rfl | hmem
            · exact hrecGood
            · exact hgood lm hmem)
        refine ⟨?_, ?_, h.2.2⟩
        · rw [h.1, List.length_cons]
          omega
        · rw [h.2.1, List.length_cons, decide_eq_decide]
          omega

/-- The per-file record invariant of the stress archive. -/
def GoodFile (L : Limits) (fm : FileMatch) : Prop :=
  fm.limitHit = true ∧ fm.lineMatches.length = L.maxLineMatches ∧
    ∀ lm ∈ fm.lineMatches, GoodLine L lm

theorem processFile_c1 (L : Limits) (hM : 0 < L.maxLineMatches)
    (hsize : 4 * (L.maxOffsets + 1) ≤ L.maxLineSize) (path : List Nat) :
    ∃ fm : FileMatch,
      processFile L [102, 111, 111] [] true false path
          (c1Content L.maxLineMatches L.maxOffsets) = some fm ∧ GoodFile L fm := by
  have h := findLinesGo_c1 L L.maxOffsets hsize (Nat.le_refl _)
    (L.maxLineMatches + 1) 0 []
    (by simp) (by intro lm hlm; simp at hlm)
  rw [show (L.maxLineMatches + 1 + ([] : List LineMatch).length) =
    L.maxLineMatches + 1 from by simp] at h
  have hres1 : (findLinesGo L [102, 111, 111] 0 []
      (List.replicate (L.maxLineMatches + 1)
        (c1Line L.maxOffsets))).1.length = L.maxLineMatches := by
    rw [h.1]
    omega
  have hres2 : (findLinesGo L [102, 111, 111] 0 []
      (List.replicate (L.maxLineMatches + 1)
        (c1Line L.maxOffsets))).2 = true := by
    rw [h.2.1]
    simp
  refine ⟨{ path := path
            lineMatches := (findLinesGo L [102, 111, 111] 0 []
              (List.replicate (L.maxLineMatches + 1) (c1Line L.maxOffsets))).1
            limitHit := (findLinesGo L [102, 111, 111] 0 []
              (List.replicate (L.maxLineMatches + 1) (c1Line L.maxOffsets))).2 },
    ?_, hres2, hres1, h.2.2⟩
  show (if (findLinesGo L [102, 111, 111] 0 []
      (splitLines (c1Content L.maxLineMatches L.maxOffsets))).1.isEmpty then _
    else _) = _
  rw [splitLines_c1Content]
  rw [if_neg (by
    rw [List.isEmpty_iff]
    intro hc
    rw [hc] at hres1
    simp at hres1
    omega)]
  rfl

theorem concurrentFindGo_all (L : Limits) (p : List Nat)
    (includes : List Regex) (fml : Nat) (mC mP : Bool) (P : FileMatch → Prop) :
    ∀ (files : List (List Nat × List Nat)) (acc : List FileMatch) (hit : Bool),
      (∀ pc ∈ files,
        ∃ fm, processFile L p includes mC mP pc.1 pc.2 = some fm ∧ P fm) →
      (∀ fm ∈ acc, P fm) →
      acc.length ≤ effLimit L fml →
      ((concurrentFindGo L p includes fml mC mP files acc hit).1.length =
          min (files.length + acc.length) (effLimit L fml) ∧
        (concurrentFindGo L p includes fml mC mP files acc hit).2 =
          (hit || decide (effLimit L fml < files.length + acc.length)) ∧
        ∀ fm ∈ (concurrentFindGo L p includes fml mC mP files acc hit).1,
          P fm) := by
  intro files
  induction files with
  | nil =>
      intro acc hit _ hgood hlen
      simp only [List.length_nil, Nat.zero_add]
      refine ⟨?_, ?_, ?_⟩
      · show acc.reverse.length = _
        rw [List.length_reverse]
        omega
      · show hit = _
        have hnot : ¬ (effLimit L fml < acc.length) := by omega
        simp [hnot]
      · intro fm hfm
        exact hgood fm (List.mem_reverse.mp hfm)
  | cons pc rest ih =>
      intro acc hit hfiles hgood hlen
      rw [concurrentFindGo]
      by_cases hc : effLimit L fml ≤ acc.length
      · rw [if_pos hc]
        refine ⟨?_, ?_, ?_⟩
        · show acc.reverse.length = _
          rw [List.length_reverse, List.length_cons]
          omega
        · show true = _
          rw [eq_comm, Bool.or_eq_true, decide_eq_true_eq]
          right
          rw [List.length_cons]
          omega
        · intro fm hfm
          exact hgood fm (List.mem_reverse.mp hfm)
      · rw [if_neg hc]
        obtain ⟨fm, hfm, hP⟩ := hfiles pc (List.mem_cons_self pc rest)
        rw [hfm]
        have h := ih (fm :: acc) hit
          (fun q hq => hfiles q (List.mem_cons_of_mem pc hq))
          (by
            intro g hg
            rcases List.mem_cons.mp hg with rfl | hmem
            · exact hP
            · exact hgood g hmem)
          (by rw [List.length_cons]; omega)
        refine ⟨?_, ?_, h.2.2⟩
        · rw [h.1, List.length_cons, List.length_cons]
          omega
        · rw [h.2.1, List.length_cons, List.length_cons]
          congr 1
          rw [decide_eq_decide]
          omega

theorem c1Archive_length (n m k : Nat) :
    (c1Archive n m k).length = n + 1 := by
  unfold c1Archive
  rw [List.length_map, List.length_range]

/-- C1: on an archive of `maxFileMatches + 1` files, each with
`maxLineMatches + 1` matching lines of `maxOffsets + 1` occurrences of the
literal `foo`, `concurrentFind` reports overall `limitHit = true` and
returns exactly `maxFileMatches` files, each flagged with exactly
`maxLineMatches` line matches, each flagged with exactly `maxOffsets`
offset/length pairs. -/
theorem c1_concurrentFind_max_matches (L : Limits) (hF : 0 < L.maxFileMatches)
    (hM : 0 < L.maxLineMatches)
    (hsize : 4 * (L.maxOffsets + 1) ≤ L.maxLineSize) :
    (concurrentFind L [102, 111, 111] [] 0 true false
        (c1Archive L.maxFileMatches L.maxLineMatches L.maxOffsets)).2 = true ∧
    (concurrentFind L [102, 111, 111] [] 0 true false
        (c1Archive L.maxFileMatches L.maxLineMatches L.maxOffsets)).1.length =
      L.maxFileMatches ∧
    ∀ fm ∈ (concurrentFind L [102, 111, 111] [] 0 true false
        (c1Archive L.maxFileMatches L.maxLineMatches L.maxOffsets)).1,
      fm.limitHit = true ∧ fm.lineMatches.length = L.maxLineMatches ∧
      ∀ lm ∈ fm.lineMatches, lm.limitHit = true ∧
        lm.offsetAndLengths.length = L.maxOffsets := by
  have hEff : effLimit L 0 = L.maxFileMatches := rfl
  have hall : ∀ pc ∈ c1Archive L.maxFileMatches L.maxLineMatches L.maxOffsets,
      ∃ fm, processFile L [102, 111, 111] [] true false pc.1 pc.2 = some fm ∧
        GoodFile L fm := by
    intro pc hpc
    unfold c1Archive at hpc
    rw [List.mem_map] at hpc
    obtain ⟨i, _, rfl⟩ := hpc
    exact processFile_c1 L hM hsize [i]
  have h := concurrentFindGo_all L [102, 111, 111] [] 0 true false
    (GoodFile L)
    (c1Archive L.maxFileMatches L.maxLineMatches L.maxOffsets) [] false
    hall (by intro fm hfm; simp at hfm) (by simp)
  rw [c1Archive_length, hEff] at h
  refine ⟨?_, ?_, ?_⟩
  · rw [show (concurrentFind L [102, 111, 111] [] 0 true false
      (c1Archive L.maxFileMatches L.maxLineMatches L.maxOffsets)).2 =
      (concurrentFindGo L [102, 111, 111] [] 0 true false
        (c1Archive L.maxFileMatches L.maxLineMatches L.maxOffsets) [] false).2
      from rfl, h.2.1]
    rw [Bool.false_or, decide_eq_true_eq]
    simp only [List.length_nil, Nat.add_zero]
    omega
  · rw [show (concurrentFind L [102, 111, 111] [] 0 true false
      (c1Archive L.maxFileMatches L.maxLineMatches L.maxOffsets)).1 =
      (concurrentFindGo L [102, 111, 111] [] 0 true false
        (c1Archive L.maxFileMatches L.maxLineMatches L.maxOffsets) [] false).1
      from rfl, h.1]
    simp only [List.length_nil, Nat.add_zero]
    omega
  · intro fm hfm
    exact h.2.2 fm hfm

/-- The small limit configuration used by the C1 witness. -/
def c1WitnessLimits : Limits :=
  { maxFileMatches := 2, maxLineMatches := 2, maxOffsets := 2
    maxLineSize := 100 }

/-- Witness for C1 at the limit configuration (2, 2, 2, 100). -/
theorem c1_witness :
    (0 < c1WitnessLimits.maxFileMatches ∧
      0 < c1WitnessLimits.maxLineMatches ∧
      4 * (c1WitnessLimits.maxOffsets + 1) ≤ c1WitnessLimits.maxLineSize) ∧
    ((concurrentFind c1WitnessLimits [102, 111, 111] [] 0 true false
        (c1Archive c1WitnessLimits.maxFileMatches c1WitnessLimits.maxLineMatches
          c1WitnessLimits.maxOffsets)).2 = true ∧
      (concurrentFind c1WitnessLimits [102, 111, 111] [] 0 true false
        (c1Archive c1WitnessLimits.maxFileMatches c1WitnessLimits.maxLineMatches
          c1WitnessLimits.maxOffsets)).1.length =
        c1WitnessLimits.maxFileMatches ∧
      ∀ fm ∈ (concurrentFind c1WitnessLimits [102, 111, 111] [] 0 true false
        (c1Archive c1WitnessLimits.maxFileMatches c1WitnessLimits.maxLineMatches
          c1WitnessLimits.maxOffsets)).1,
        fm.limitHit = true ∧
        fm.lineMatches.length = c1WitnessLimits.maxLineMatches ∧
        ∀ lm ∈ fm.lineMatches, lm.limitHit = true ∧
          lm.offsetAndLengths.length = c1WitnessLimits.maxOffsets) :=
  ⟨⟨by decide, by decide, by decide⟩,
    c1_concurrentFind_max_matches c1WitnessLimits (by decide) (by decide)
      (by decide)⟩

/-- A two-file archive in which both files match the pattern `foo`. -/
def c9Archive : List (List Nat × List Nat) :=
  [([97], [102, 111, 111]), ([98], [102, 111, 111])]

/-- C9 counterexample: with the same compiled matcher and the same
unmutated archive, two runs whose worker pools deliver per-file results in
different completion orders return different FileMatch sequences, so the
claimed "identical sequences (same files, in the same order)" fails. -/
theorem c9_counterexample_order_differs :
    (concurrentFindSched stdLimits [102, 111, 111] [] 0 true false
        c9Archive [0, 1]).1 ≠
      (concurrentFindSched stdLimits [102, 111, 111] [] 0 true false
        c9Archive [1, 0]).1 := by
  decide

theorem concurrentFindGo_no_limit (L : Limits) (p : List Nat)
    (includes : List Regex) (fml : Nat) (mC mP : Bool) :
    ∀ (files : List (List Nat × List Nat)) (acc : List FileMatch) (hit : Bool),
      files.length + acc.length ≤ effLimit L fml →
      concurrentFindGo L p includes fml mC mP files acc hit =
        (acc.reverse ++ files.filterMap
          (fun pc => processFile L p includes mC mP pc.1 pc.2), hit) := by
  intro files
  induction files with
  | nil =>
      intro acc hit _
      show (acc.reverse, hit) = _
      rw [List.filterMap_nil, List.append_nil]
  | cons pc rest ih =>
      intro acc hit hlen
      rw [List.length_cons] at hlen
      rw [concurrentFindGo, if_neg (by omega)]
      rcases hpf : processFile L p includes mC mP pc.1 pc.2 with _ | fm
      · show concurrentFindGo L p includes fml mC mP rest acc hit = _
        rw [ih acc hit (by omega)]
        simp only [List.filterMap_cons, hpf]
      · show concurrentFindGo L p includes fml mC mP rest (fm :: acc) hit = _
        rw [ih (fm :: acc) hit (by rw [List.length_cons]; omega)]
        simp only [List.filterMap_cons, hpf]
        rw [List.reverse_cons, List.append_assoc]
        rfl

theorem range_filterMap_getElem (files : List (List Nat × List Nat)) :
    (List.range files.length).filterMap (fun idx => files[idx]?) = files := by
  induction files with
  | nil => rfl
  | cons x t ih =>
      rw [List.length_cons, List.range_succ_eq_map, List.filterMap_cons]
      simp only [List.getElem?_cons_zero, List.filterMap_map]
      rw [show ((fun idx => (x :: t)[idx]?) ∘ Nat.succ) =
        (fun idx => t[idx]?) from by
          funext idx
          simp [List.getElem?_cons_succ]]
      rw [ih]

theorem sched_filterMap_perm (files : List (List Nat × List Nat))
    (sched : List Nat) (h : sched.Perm (List.range files.length)) :
    (sched.filterMap (fun idx => files[idx]?)).Perm files := by
  have h2 := List.Perm.filterMap (fun idx => files[idx]?) h
  rw [range_filterMap_getElem] at h2
  exact h2

/-- C9 amended: two runs of the same compiled matcher on the same
unmutated archive return FileMatch sequences that are permutations of each
other (identical as multisets, hence identical after sorting), with equal
overall limit flags, for any two worker completion orders, provided the
archive fits under the file-match cap; the order of the sequences
themselves may differ between runs. -/
theorem c9_amended_runs_agree_up_to_order (L : Limits) (p : List Nat)
    (includes : List Regex) (fml : Nat) (mC mP : Bool)
    (files : List (List Nat × List Nat)) (s1 s2 : List Nat)
    (h1 : s1.Perm (List.range files.length))
    (h2 : s2.Perm (List.range files.length))
    (hcap : files.length ≤ effLimit L fml) :
    (concurrentFindSched L p includes fml mC mP files s1).1.Perm
      ((concurrentFindSched L p includes fml mC mP files s2).1) ∧
    (concurrentFindSched L p includes fml mC mP files s1).2 =
      (concurrentFindSched L p includes fml mC mP files s2).2 := by
  have p1 := sched_filterMap_perm files s1 h1
  have p2 := sched_filterMap_perm files s2 h2
  unfold concurrentFindSched
  rw [concurrentFindGo_no_limit L p includes fml mC mP _ [] false
    (by rw [p1.length_eq, List.length_nil, Nat.add_zero]; exact hcap)]
  rw [concurrentFindGo_no_limit L p includes fml mC mP _ [] false
    (by rw [p2.length_eq, List.length_nil, Nat.add_zero]; exact hcap)]
  constructor
  · simp only [List.reverse_nil, List.nil_append]
    exact List.Perm.filterMap _ (p1.trans p2.symm)
  · rfl

/-- Witness for the amended C9 on the two-file archive with the two
completion orders `[1, 0]` and `[0, 1]`. -/
theorem c9_amended_witness :
    (([1, 0] : List Nat).Perm (List.range c9Archive.length) ∧
      ([0, 1] : List Nat).Perm (List.range c9Archive.length) ∧
      c9Archive.length ≤ effLimit stdLimits 0) ∧
    ((concurrentFindSched stdLimits [102, 111, 111] [] 0 true false
        c9Archive [1, 0]).1.Perm
      ((concurrentFindSched stdLimits [102, 111, 111] [] 0 true false
        c9Archive [0, 1]).1) ∧
      (concurrentFindSched stdLimits [102, 111, 111] [] 0 true false
        c9Archive [1, 0]).2 =
        (concurrentFindSched stdLimits [102, 111, 111] [] 0 true false
          c9Archive [0, 1]).2) :=
  ⟨⟨by decide, by decide, by decide⟩,
    c9_amended_runs_agree_up_to_order stdLimits [102, 111, 111] [] 0 true false
      c9Archive [1, 0] [0, 1] (by decide) (by decide) (by decide)⟩

/-- A limit configuration whose file-match cap (1) binds on the two-file
archive. -/
def c9CapLimits : Limits :=
  { maxFileMatches := 1, maxLineMatches := 100, maxOffsets := 10
    maxLineSize := 4096 }

/-- When the file-match cap binds, different worker completion orders keep
different files: with cap 1 on the two-file archive the runs with
completion orders `[0, 1]` and `[1, 0]` return results that are not even
permutations of each other. This is why the permutation guarantee of the
preceding theorem carries the no-truncation proviso. -/
theorem concurrentFindSched_cap_binding_not_perm :
    ¬ (concurrentFindSched c9CapLimits [102, 111, 111] [] 0 true false
        c9Archive [0, 1]).1.Perm
      ((concurrentFindSched c9CapLimits [102, 111, 111] [] 0 true false
        c9Archive [1, 0]).1) := by
  decide
